import Mathlib

/-!
# Verification of the FROST BIP340 signature aggregator

A shallow embedding of `src/frost/aggregator.py` (class `Aggregator`) and
proofs of the specification's claims about it.

The repository's curve arithmetic (`point.py`), the group-order constant
(`constants.py`) and the hash function (`hashlib.sha256`) are external
collaborators of the aggregator module; they are modelled from the spec
(§3, §6): an abstract curve interface `CurveOps`, the secp256k1 group
order `Q`, and a byte-level SHA-256.

Bytes are `Nat` values below 256; byte strings are `List Nat`; Python
`int` signature shares are `Int`; fallible operations return
`Except AggError`.
-/

/-- Big-endian fixed-width byte encoding of a natural number, as Python's
`n.to_bytes(k, "big")` produces when `n < 256 ^ k` (the width is the first
argument; high bytes come first). -/
def natToBytesBE : Nat → Nat → List Nat
  | 0, _ => []
  | k + 1, n => natToBytesBE k (n / 256) ++ [n % 256]

/-- Big-endian interpretation of a byte string as an unsigned integer,
as Python's `int.from_bytes(bs, "big")`. -/
def intFromBytesBE (bs : List Nat) : Nat :=
  bs.foldl (fun acc b => acc * 256 + b) 0

/-- The ASCII bytes of a string, as Python's byte-string literals. -/
def strBytes (s : String) : List Nat :=
  s.data.map Char.toNat

namespace SHA256

/-! Modelled from the spec: the aggregator's hash is SHA-256 (`hashlib.sha256`,
an external collaborator; §4.2 "single-pass cryptographic hash", claims name
SHA-256).  This is the FIPS 180-4 byte-level function. -/

/-- 32-bit right rotation. -/
def rotr (n x : Nat) : Nat :=
  ((x >>> n) ||| (x <<< (32 - n))) % 4294967296

/-- FIPS 180-4 Σ₀. -/
def bigSigma0 (x : Nat) : Nat := rotr 2 x ^^^ rotr 13 x ^^^ rotr 22 x

/-- FIPS 180-4 Σ₁. -/
def bigSigma1 (x : Nat) : Nat := rotr 6 x ^^^ rotr 11 x ^^^ rotr 25 x

/-- FIPS 180-4 σ₀. -/
def smallSigma0 (x : Nat) : Nat := rotr 7 x ^^^ rotr 18 x ^^^ (x >>> 3)

/-- FIPS 180-4 σ₁. -/
def smallSigma1 (x : Nat) : Nat := rotr 17 x ^^^ rotr 19 x ^^^ (x >>> 10)

/-- FIPS 180-4 Ch. -/
def ch (x y z : Nat) : Nat := (x &&& y) ^^^ ((x ^^^ 4294967295) &&& z)

/-- FIPS 180-4 Maj. -/
def maj (x y z : Nat) : Nat := (x &&& y) ^^^ (x &&& z) ^^^ (y &&& z)

/-- The 64 SHA-256 round constants. -/
def roundK : List Nat :=
  [1116352408, 1899447441, 3049323471, 3921009573, 961987163,
   1508970993, 2453635748, 2870763221, 3624381080, 310598401,
   607225278, 1426881987, 1925078388, 2162078206, 2614888103,
   3248222580, 3835390401, 4022224774, 264347078, 604807628,
   770255983, 1249150122, 1555081692, 1996064986, 2554220882,
   2821834349, 2952996808, 3210313671, 3336571891, 3584528711,
   113926993, 338241895, 666307205, 773529912, 1294757372,
   1396182291, 1695183700, 1986661051, 2177026350, 2456956037,
   2730485921, 2820302411, 3259730800, 3345764771, 3516065817,
   3600352804, 4094571909, 275423344, 430227734, 506948616,
   659060556, 883997877, 958139571, 1322822218, 1537002063,
   1747873779, 1955562222, 2024104815, 2227730452, 2361852424,
   2428436474, 2756734187, 3204031479, 3329325298]

/-- The SHA-256 initial hash state. -/
def initH : List Nat :=
  [1779033703, 3144134277, 1013904242, 2773480762,
   1359893119, 2600822924, 528734635, 1541459225]

/-- FIPS 180-4 padding: append `0x80`, zero bytes to reach 56 mod 64,
then the 8-byte big-endian bit length. -/
def padMessage (msg : List Nat) : List Nat :=
  let r := msg.length % 64
  let k := (119 - r) % 64
  msg ++ [0x80] ++ List.replicate k 0 ++ natToBytesBE 8 (8 * msg.length)

/-- Group a byte string into big-endian 32-bit words. -/
def toWords : List Nat → List Nat
  | b0 :: b1 :: b2 :: b3 :: rest =>
      (((b0 * 256 + b1) * 256 + b2) * 256 + b3) :: toWords rest
  | _ => []

/-- Extend the 16 block words to the 64-entry message schedule. -/
def extendSchedule (w0 : List Nat) : List Nat :=
  (List.range 48).foldl
    (fun w t =>
      w ++ [(smallSigma1 (w.getD (t + 14) 0) + w.getD (t + 9) 0 +
             smallSigma0 (w.getD (t + 1) 0) + w.getD t 0) % 4294967296])
    w0

/-- One application of the SHA-256 compression function to a 64-byte block. -/
def compressBlock (hs : List Nat) (block : List Nat) : List Nat :=
  let w := extendSchedule (toWords block)
  let final := (List.range 64).foldl
    (fun st t =>
      match st with
      | (a, b, c, d, e, f, g, hw) =>
        let t1 := (hw + bigSigma1 e + ch e f g + roundK.getD t 0 +
                   w.getD t 0) % 4294967296
        let t2 := (bigSigma0 a + maj a b c) % 4294967296
        ((t1 + t2) % 4294967296, a, b, c, (d + t1) % 4294967296, e, f, g))
    (hs.getD 0 0, hs.getD 1 0, hs.getD 2 0, hs.getD 3 0,
     hs.getD 4 0, hs.getD 5 0, hs.getD 6 0, hs.getD 7 0)
  match final with
  | (a, b, c, d, e, f, g, hw) =>
    [(hs.getD 0 0 + a) % 4294967296, (hs.getD 1 0 + b) % 4294967296,
     (hs.getD 2 0 + c) % 4294967296, (hs.getD 3 0 + d) % 4294967296,
     (hs.getD 4 0 + e) % 4294967296, (hs.getD 5 0 + f) % 4294967296,
     (hs.getD 6 0 + g) % 4294967296, (hs.getD 7 0 + hw) % 4294967296]

/-- Split a (padded) byte string into 64-byte blocks. -/
def toBlocks (l : List Nat) : List (List Nat) :=
  if h : l = [] then []
  else
    have : (l.drop 64).length < l.length := by
      rw [List.length_drop]
      exact Nat.sub_lt (List.length_pos.mpr h) (by decide)
    l.take 64 :: toBlocks (l.drop 64)
termination_by l.length

end SHA256

/-- SHA-256 of a byte string, as a 32-byte digest. -/
def sha256 (msg : List Nat) : List Nat :=
  ((SHA256.toBlocks (SHA256.padMessage msg)).foldl SHA256.compressBlock
      SHA256.initH).foldl (fun acc w => acc ++ natToBytesBE 4 w) []

/-- Lowercase hexadecimal digit characters. -/
def hexDigitChars : List Char := "0123456789abcdef".data

/-- The two lowercase hex characters of one byte. -/
def byteToHex (b : Nat) : List Char :=
  [hexDigitChars.getD (b / 16) (Char.ofNat 48), hexDigitChars.getD (b % 16) (Char.ofNat 48)]

/-- Lowercase hex encoding of a byte string, as Python's `bytes.hex()`. -/
def bytesToHex (bs : List Nat) : String :=
  String.mk ((bs.map byteToHex).flatten)

/-- Modelled from the spec: the group order constant `Q` (§6: "a fixed large
prime, curve-specific; reference targets the secp256k1 order for BIP340
compatibility"); `constants.py` is outside the aggregator module. -/
def Q : Nat :=
  0xFFFFFFFFFFFFFFFFFFFFFFFFFFFFFFFEBAAEDCE6AF48A03BBFD25E8CD0364141

/-- The exceptions the aggregator can raise: Python `ValueError` (the spec's
`IndexOutOfRange` condition) and Python `OverflowError` (from
`int.to_bytes` when the value does not fit the requested width). -/
inductive AggError where
  | valueError (msg : String)
  | overflowError (msg : String)
deriving DecidableEq, Repr

/-- Python's `n.to_bytes(length, "big")` on a natural number: the big-endian
encoding when the value fits, `OverflowError` otherwise. -/
def intToBytes (length n : Nat) : Except AggError (List Nat) :=
  if n < 256 ^ length then .ok (natToBytesBE length n)
  else .error (.overflowError "int too big to convert")

/-- Modelled from the spec: the external curve-arithmetic collaborator (§3
`CurvePoint`, §6): identity element, commutative and associative point
addition, scalar multiplication by a non-negative integer, a full "SEC"
serialization, and a 32-byte "x-only" serialization. -/
structure CurveOps where
  Point : Type
  /-- `Point()`: the point at infinity (identity element). -/
  infinity : Point
  /-- Point addition (`+` on `Point`); commutative and associative per §6. -/
  add : Point → Point → Point
  /-- Scalar multiplication of a point by a non-negative integer. -/
  smul : Nat → Point → Point
  /-- `Point.sec_serialize`: the full encoded form of a point. -/
  sec_serialize : Point → List Nat
  /-- `Point.xonly_serialize`: the 32-byte x-only form of a point. -/
  xonly_serialize : Point → List Nat
  add_comm : ∀ P R, add P R = add R P
  add_assoc : ∀ P R S, add (add P R) S = add P (add R S)
  xonly_length : ∀ P, (xonly_serialize P).length = 32
  xonly_bytes_lt : ∀ P, ∀ b ∈ xonly_serialize P, b < 256

namespace Aggregator

/-! The shallow embedding of `class Aggregator` (`src/frost/aggregator.py`).
All methods are classmethods over the aggregator's three fields, so each is
embedded as a function of `(message, nonce_commitment_pairs,
participant_indexes)`, over an arbitrary curve backend `C : CurveOps`. -/

variable (C : CurveOps)

/-- The byte block one participant index contributes to the binding-value
hash: the SEC serialization of its first commitment followed by the SEC
serialization of its second commitment (`aggregator.py` lines 125-128). -/
def commitmentBlock (nonce_commitment_pairs : List (C.Point × C.Point))
    (idx : Nat) : List Nat :=
  let participant_pair :=
    nonce_commitment_pairs.getD (idx - 1) (C.infinity, C.infinity)
  C.sec_serialize participant_pair.1 ++ C.sec_serialize participant_pair.2

/-- The loop of `binding_value` over `participant_indexes` (lines 121-129):
range-check each referenced index, then serialize its commitment pair. -/
def serializeBlocks (nonce_commitment_pairs : List (C.Point × C.Point)) :
    List Nat → Except AggError (List (List Nat))
  | [] => .ok []
  | idx :: rest =>
    if idx < 1 ∨ idx > nonce_commitment_pairs.length then
      .error (.valueError
        ("Index " ++ toString idx ++ " is out of range for nonce commitments."))
    else do
      let blocks ← serializeBlocks nonce_commitment_pairs rest
      return commitmentBlock C nonce_commitment_pairs idx :: blocks

/-- `Aggregator.binding_value` (lines 89-137): `p_l = H_1(l, m, B)`. -/
def binding_value (index : Nat) (message : List Nat)
    (nonce_commitment_pairs : List (C.Point × C.Point))
    (participant_indexes : List Nat) : Except AggError Nat := do
  if index < 1 then
    throw (.valueError "Participant index must start from 1.")
  let index_byte ← intToBytes 1 index
  let nonce_commitment_pairs_bytes ←
    serializeBlocks C nonce_commitment_pairs participant_indexes
  return intFromBytesBE
    (sha256 (index_byte ++ message ++ nonce_commitment_pairs_bytes.flatten))

/-- The loop of `group_commitment` (lines 73-85), with the accumulator
explicit: range-check the index, derive its binding value with respect to
the full participant-index list, and add `D_l + p_l * E_l`. -/
def gcLoop (message : List Nat)
    (nonce_commitment_pairs : List (C.Point × C.Point))
    (participant_indexes : List Nat) :
    List Nat → C.Point → Except AggError C.Point
  | [], acc => .ok acc
  | index :: rest, acc =>
    if index < 1 ∨ index > nonce_commitment_pairs.length then
      .error (.valueError
        ("Participant index " ++ toString index ++ " is out of range."))
    else do
      let bv ← binding_value C index message nonce_commitment_pairs
        participant_indexes
      let pair := nonce_commitment_pairs.getD (index - 1) (C.infinity, C.infinity)
      gcLoop message nonce_commitment_pairs participant_indexes rest
        (C.add acc (C.add pair.1 (C.smul bv pair.2)))

/-- `Aggregator.group_commitment` (lines 48-87): `R = ∏ D_l * (E_l)^p_l`,
starting from the point at infinity. -/
def group_commitment (message : List Nat)
    (nonce_commitment_pairs : List (C.Point × C.Point))
    (participant_indexes : List Nat) : Except AggError C.Point :=
  gcLoop C message nonce_commitment_pairs participant_indexes
    participant_indexes C.infinity

/-- `Aggregator.challenge_hash` (lines 139-165): the BIP340-style tagged
hash `c = H_2(R, Y, m)`, reduced modulo `Q`. -/
def challenge_hash (nonce_commitment public_key : C.Point)
    (message : List Nat) : Nat :=
  let tag_hash := sha256 (strBytes "BIP0340/challenge")
  intFromBytesBE
    (sha256 (tag_hash ++ tag_hash ++ C.xonly_serialize nonce_commitment ++
      C.xonly_serialize public_key ++ message)) % Q

/-- The aggregated scalar of `signature` (line 216):
`z = sum(signature_shares) % Q`.  Python `sum` is a left fold from `0`, and
Python `%` with the positive modulus `Q` is `Int.emod`. -/
def zValue (signature_shares : List Int) : Int :=
  (signature_shares.foldl (· + ·) 0) % (Q : Int)

/-- `Aggregator.signature` (lines 199-219): recompute the group commitment,
sum the shares modulo `Q`, and hex-encode `x-only(R) || z`. -/
def signature (message : List Nat)
    (nonce_commitment_pairs : List (C.Point × C.Point))
    (participant_indexes : List Nat)
    (signature_shares : List Int) : Except AggError String := do
  let group_commitment ←
    Aggregator.group_commitment C message nonce_commitment_pairs
      participant_indexes
  let nonce_commitment := C.xonly_serialize group_commitment
  let z := zValue signature_shares
  return bytesToHex (nonce_commitment ++ natToBytesBE 32 z.toNat)

end Aggregator

namespace Aggregator

/-- The binding factor as the spec's words describe it (§4.2): a single
SHA-256 pass over the 1-byte big-endian encoding of `l`, the message bytes,
and the concatenation, in the set's given order, of the SEC-serialized
commitment pairs; the digest read as a big-endian unsigned integer, with no
reduction modulo `Q`. -/
def binding_value_spec (C : CurveOps) (index : Nat) (message : List Nat)
    (nonce_commitment_pairs : List (C.Point × C.Point))
    (participant_indexes : List Nat) : Nat :=
  intFromBytesBE
    (sha256 (natToBytesBE 1 index ++ message ++
      (participant_indexes.map (commitmentBlock C nonce_commitment_pairs)).flatten))

/-- The challenge as the spec's words describe it (§4.4): with
`tag = Hash("BIP0340/challenge")`, hash
`tag || tag || x_only(nonce_commitment) || x_only(public_key) || message`,
read the digest as a big-endian unsigned integer and reduce modulo `Q`. -/
def challenge_hash_spec (C : CurveOps) (nonce_commitment public_key : C.Point)
    (message : List Nat) : Nat :=
  let tag := sha256 (strBytes "BIP0340/challenge")
  intFromBytesBE
    (sha256 (tag ++ tag ++ C.xonly_serialize nonce_commitment ++
      C.xonly_serialize public_key ++ message)) % Q

/-- One participant's contribution to the group commitment:
`D_l + p_l * E_l`, the binding value taken with respect to the full
participant-index list. -/
def gcTerm (C : CurveOps) (message : List Nat)
    (nonce_commitment_pairs : List (C.Point × C.Point))
    (participant_indexes : List Nat) (l : Nat) : C.Point :=
  let pair := nonce_commitment_pairs.getD (l - 1) (C.infinity, C.infinity)
  C.add pair.1
    (C.smul (binding_value_spec C l message nonce_commitment_pairs
      participant_indexes) pair.2)

/-- The 64 bytes behind the hex signature: the x-only serialization of the
folded group commitment followed by the 32-byte big-endian aggregated
scalar. -/
def sigBytes (C : CurveOps) (message : List Nat)
    (nonce_commitment_pairs : List (C.Point × C.Point))
    (participant_indexes : List Nat) (signature_shares : List Int) :
    List Nat :=
  C.xonly_serialize
      (participant_indexes.foldl
        (fun a l => C.add a
          (gcTerm C message nonce_commitment_pairs participant_indexes l))
        C.infinity) ++
    natToBytesBE 32 (zValue signature_shares).toNat

end Aggregator

/-- `natToBytesBE` always produces exactly the requested width. -/
theorem natToBytesBE_length (k : Nat) : ∀ n, (natToBytesBE k n).length = k := by
  induction k with
  | zero => intro n; rfl
  | succ k ih => intro n; simp [natToBytesBE, ih]

/-- Every entry `natToBytesBE` produces is a byte. -/
theorem natToBytesBE_bytes_lt (k : Nat) :
    ∀ n, ∀ b ∈ natToBytesBE k n, b < 256 := by
  induction k with
  | zero => intro n b hb; simp [natToBytesBE] at hb
  | succ k ih =>
    intro n b hb
    simp only [natToBytesBE, List.mem_append, List.mem_singleton] at hb
    rcases hb with h | h
    · exact ih _ b h
    · subst h; exact Nat.mod_lt _ (by decide)

/-- A concrete, executable curve backend used to evaluate the development at
specific inputs — the spec treats the curve as an opaque collaborator whose
backends can be substituted (§9), and requires of it only an identity,
commutative associative addition, scalar multiplication and the two
serializations: here the additive monoid of naturals with big-endian
serializations. -/
def testCurve : CurveOps where
  Point := Nat
  infinity := 0
  add := (· + ·)
  smul := (· * ·)
  sec_serialize := natToBytesBE 33
  xonly_serialize := natToBytesBE 32
  add_comm := Nat.add_comm
  add_assoc := Nat.add_assoc
  xonly_length P := natToBytesBE_length 32 P
  xonly_bytes_lt P := natToBytesBE_bytes_lt 32 P

/-- A one-participant commitment list over `testCurve`. -/
def pairs1 : List (testCurve.Point × testCurve.Point) := [((1 : Nat), (2 : Nat))]

/-- A two-participant commitment list over `testCurve`. -/
def pairs2 : List (testCurve.Point × testCurve.Point) :=
  [((1 : Nat), (2 : Nat)), ((3 : Nat), (4 : Nat))]

/-- A 256-participant commitment list over `testCurve`, so that the
participant index 256 is in range. -/
def pairs256 : List (testCurve.Point × testCurve.Point) :=
  List.replicate 256 ((1 : Nat), (2 : Nat))

/-- The group order is positive. -/
theorem Q_pos : 0 < Q := by decide

/-- The group order fits in 32 bytes. -/
theorem Q_lt_pow : Q < 256 ^ 32 := by decide

/-- When every referenced index is in range, the `binding_value` loop
serializes exactly one commitment block per occurrence, in list order. -/
theorem serializeBlocks_ok (C : CurveOps)
    (pairs : List (C.Point × C.Point)) (S : List Nat)
    (hS : ∀ i ∈ S, 1 ≤ i ∧ i ≤ pairs.length) :
    Aggregator.serializeBlocks C pairs S =
      .ok (S.map (Aggregator.commitmentBlock C pairs)) := by
  induction S with
  | nil => rfl
  | cons a t ih =>
    have ha := hS a (List.mem_cons_self a t)
    unfold Aggregator.serializeBlocks
    rw [if_neg (by omega : ¬(a < 1 ∨ a > pairs.length))]
    rw [ih (fun i hi => hS i (List.mem_cons_of_mem a hi))]
    rfl

/-- The `binding_value` loop stops with `ValueError` at the first
out-of-range referenced index. -/
theorem serializeBlocks_err (C : CurveOps)
    (pairs : List (C.Point × C.Point)) (bad : Nat) (S2 : List Nat)
    (hbad : bad < 1 ∨ bad > pairs.length) :
    ∀ S1, (∀ i ∈ S1, 1 ≤ i ∧ i ≤ pairs.length) →
      Aggregator.serializeBlocks C pairs (S1 ++ bad :: S2) =
        .error (.valueError
          ("Index " ++ toString bad ++ " is out of range for nonce commitments.")) := by
  intro S1
  induction S1 with
  | nil =>
    intro _
    rw [List.nil_append]
    unfold Aggregator.serializeBlocks
    rw [if_pos hbad]
  | cons a t ih =>
    intro h
    have ha := h a (List.mem_cons_self a t)
    rw [List.cons_append]
    unfold Aggregator.serializeBlocks
    rw [if_neg (by omega : ¬(a < 1 ∨ a > pairs.length))]
    rw [ih (fun i hi => h i (List.mem_cons_of_mem a hi))]
    rfl

/-- `binding_value` succeeds and computes the spec's binding factor whenever
its own index is in `[1, 255]` and every index of the participant-index list
is in range. -/
theorem binding_value_ok (C : CurveOps) (index : Nat) (message : List Nat)
    (pairs : List (C.Point × C.Point)) (S : List Nat)
    (h1 : 1 ≤ index) (h2 : index ≤ 255)
    (hS : ∀ i ∈ S, 1 ≤ i ∧ i ≤ pairs.length) :
    Aggregator.binding_value C index message pairs S =
      .ok (Aggregator.binding_value_spec C index message pairs S) := by
  unfold Aggregator.binding_value
  rw [if_neg (by omega : ¬ index < 1)]
  have hbyte : intToBytes 1 index = .ok (natToBytesBE 1 index) := by
    unfold intToBytes
    rw [if_pos (by rw [pow_one]; omega)]
  rw [hbyte, serializeBlocks_ok C pairs S hS]
  rfl

/-- The `group_commitment` loop succeeds and folds one term per occurrence
when every index of the participant-index list is in `[1, n]` and at
most 255. -/
theorem gcLoop_ok (C : CurveOps) (message : List Nat)
    (pairs : List (C.Point × C.Point)) (S : List Nat)
    (hS : ∀ i ∈ S, 1 ≤ i ∧ i ≤ pairs.length) :
    ∀ T acc, (∀ i ∈ T, (1 ≤ i ∧ i ≤ pairs.length) ∧ i ≤ 255) →
      Aggregator.gcLoop C message pairs S T acc =
        .ok (T.foldl
          (fun a l => C.add a (Aggregator.gcTerm C message pairs S l)) acc) := by
  intro T
  induction T with
  | nil => intro acc _; rfl
  | cons a t ih =>
    intro acc hT
    have ha := hT a (List.mem_cons_self a t)
    unfold Aggregator.gcLoop
    rw [if_neg (by omega : ¬(a < 1 ∨ a > pairs.length))]
    rw [binding_value_ok C a message pairs S (by omega) (by omega) hS]
    rw [List.foldl_cons]
    exact ih _ (fun i hi => hT i (List.mem_cons_of_mem a hi))

/-- `group_commitment` succeeds and equals the left fold of the
per-participant terms when every index is in `[1, n]` and at most 255. -/
theorem group_commitment_ok (C : CurveOps) (message : List Nat)
    (pairs : List (C.Point × C.Point)) (S : List Nat)
    (hS : ∀ i ∈ S, (1 ≤ i ∧ i ≤ pairs.length) ∧ i ≤ 255) :
    Aggregator.group_commitment C message pairs S =
      .ok (S.foldl
        (fun a l => C.add a (Aggregator.gcTerm C message pairs S l))
        C.infinity) :=
  gcLoop_ok C message pairs S (fun i hi => (hS i hi).1) S C.infinity hS

/-- Point addition lets an addend move out of a left fold of curve-point
additions (commutativity plus associativity of `CurveOps.add`). -/
theorem foldl_add_out (C : CurveOps) (term : Nat → C.Point) :
    ∀ (T : List Nat) (z x : C.Point),
      T.foldl (fun a l => C.add a (term l)) (C.add z x) =
        C.add (T.foldl (fun a l => C.add a (term l)) z) x := by
  intro T
  induction T with
  | nil => intro z x; rfl
  | cons a t ih =>
    intro z x
    rw [List.foldl_cons, List.foldl_cons,
      C.add_assoc z x (term a), C.add_comm x (term a),
      ← C.add_assoc z (term a) x, ih]

/-- Hex encoding doubles the length: one byte becomes two characters. -/
theorem bytesToHex_length (bs : List Nat) :
    (bytesToHex bs).length = 2 * bs.length := by
  induction bs with
  | nil => rfl
  | cons b t ih =>
    simp only [bytesToHex, String.length, List.map_cons, List.flatten_cons,
      byteToHex, List.length_append, List.length_cons, List.length_nil] at *
    omega

/-- Hex encoding of genuine bytes uses only lowercase hex digits. -/
theorem bytesToHex_chars (bs : List Nat) (h : ∀ b ∈ bs, b < 256) :
    ∀ c ∈ (bytesToHex bs).data, c ∈ hexDigitChars := by
  intro c hc
  simp only [bytesToHex, List.mem_flatten, List.mem_map] at hc
  obtain ⟨lc, ⟨b, hb, rfl⟩, hcl⟩ := hc
  have hb256 := h b hb
  have hlen : hexDigitChars.length = 16 := rfl
  simp only [byteToHex, List.mem_cons, List.not_mem_nil, or_false] at hcl
  rcases hcl with rfl | rfl
  · rw [List.getD_eq_getElem _ _ (by omega : b / 16 < hexDigitChars.length)]
    exact List.getElem_mem _
  · rw [List.getD_eq_getElem _ _ (by omega : b % 16 < hexDigitChars.length)]
    exact List.getElem_mem _

/-- Reading back a big-endian encoding after appending one byte. -/
theorem intFromBytesBE_append_one (xs : List Nat) (b : Nat) :
    intFromBytesBE (xs ++ [b]) = intFromBytesBE xs * 256 + b := by
  simp [intFromBytesBE, List.foldl_append]

/-- The fixed-width big-endian encoding is left-inverted by the big-endian
reading, for any value that fits the width. -/
theorem intFromBytesBE_natToBytesBE (k : Nat) :
    ∀ n, n < 256 ^ k → intFromBytesBE (natToBytesBE k n) = n := by
  induction k with
  | zero =>
    intro n h
    simp only [pow_zero] at h
    simp only [natToBytesBE, intFromBytesBE, List.foldl_nil]
    omega
  | succ k ih =>
    intro n h
    have hdiv : n / 256 < 256 ^ k := by
      have hp : 256 ^ (k + 1) = 256 ^ k * 256 := pow_succ 256 k
      rw [hp] at h
      omega
    simp only [natToBytesBE]
    rw [intFromBytesBE_append_one, ih (n / 256) hdiv]
    omega

/-- The zero scalar encodes as 32 zero bytes. -/
theorem natToBytesBE_zero (k : Nat) :
    natToBytesBE k 0 = List.replicate k 0 := by
  induction k with
  | zero => rfl
  | succ k ih =>
    simp only [natToBytesBE, Nat.zero_div, Nat.zero_mod, ih]
    rw [← List.replicate_succ']

/-- When its index exceeds 255, `binding_value` fails at the 1-byte index
encoding with `OverflowError`, before the participant-index loop runs. -/
theorem binding_value_overflow (C : CurveOps) (index : Nat)
    (message : List Nat) (pairs : List (C.Point × C.Point)) (S : List Nat)
    (h : 255 < index) :
    Aggregator.binding_value C index message pairs S =
      .error (.overflowError "int too big to convert") := by
  unfold Aggregator.binding_value
  rw [if_neg (by omega : ¬ index < 1)]
  have hbyte : intToBytes 1 index =
      .error (.overflowError "int too big to convert") := by
    unfold intToBytes
    rw [if_neg (by rw [pow_one]; omega)]
  rw [hbyte]
  rfl

/-- The `group_commitment` loop fails with `OverflowError` whenever all its
indexes are in range but one of them exceeds 255. -/
theorem gcLoop_overflow (C : CurveOps) (message : List Nat)
    (pairs : List (C.Point × C.Point)) (S : List Nat)
    (hS : ∀ i ∈ S, 1 ≤ i ∧ i ≤ pairs.length) :
    ∀ T acc, (∀ i ∈ T, 1 ≤ i ∧ i ≤ pairs.length) → (∃ b ∈ T, 255 < b) →
      Aggregator.gcLoop C message pairs S T acc =
        .error (.overflowError "int too big to convert") := by
  intro T
  induction T with
  | nil => intro acc _ hex; simp at hex
  | cons a t ih =>
    intro acc hT hex
    have ha := hT a (List.mem_cons_self a t)
    unfold Aggregator.gcLoop
    rw [if_neg (by omega : ¬(a < 1 ∨ a > pairs.length))]
    by_cases h255 : 255 < a
    · rw [binding_value_overflow C a message pairs S h255]
      rfl
    · rw [binding_value_ok C a message pairs S (by omega) (by omega) hS]
      refine ih _ (fun i hi => hT i (List.mem_cons_of_mem a hi)) ?_
      obtain ⟨b, hb, hb255⟩ := hex
      rcases List.mem_cons.mp hb with rfl | hbt
      · omega
      · exact ⟨b, hbt, hb255⟩

/-- Claim C2 (confirmed): for a participant index in `[1, 255]` and a
participant-index set whose members are all in `[1, n]`, `binding_value`
returns the SHA-256 digest of the 1-byte big-endian index, the message
bytes, and the SEC-serialized `(D, E)` blocks of the set in its given
order, read as a big-endian unsigned integer with no reduction modulo `Q`
(which is what `binding_value_spec` computes). -/
theorem binding_value_matches_spec (C : CurveOps) (l : Nat)
    (message : List Nat) (pairs : List (C.Point × C.Point)) (S : List Nat)
    (h1 : 1 ≤ l) (h2 : l ≤ 255)
    (hS : ∀ i ∈ S, 1 ≤ i ∧ i ≤ pairs.length) :
    Aggregator.binding_value C l message pairs S =
      .ok (Aggregator.binding_value_spec C l message pairs S) :=
  binding_value_ok C l message pairs S h1 h2 hS

/-- Claim C2 witness: the theorem applied at a concrete one-participant
configuration. -/
theorem binding_value_matches_spec_witness :
    (1 ≤ 1 ∧ 1 ≤ 255 ∧ ∀ i ∈ [1], 1 ≤ i ∧ i ≤ pairs1.length) ∧
      Aggregator.binding_value testCurve 1 [] pairs1 [1] =
        .ok (Aggregator.binding_value_spec testCurve 1 [] pairs1 [1]) :=
  ⟨by decide,
   binding_value_matches_spec testCurve 1 [] pairs1 [1] (by decide) (by decide)
     (by decide)⟩

/-- Claim C4 (confirmed): `challenge_hash` is the BIP340-style tagged hash
`SHA-256(tag || tag || x_only(R) || x_only(P) || message)` with
`tag = SHA-256("BIP0340/challenge")`, read big-endian and reduced modulo
`Q` (which is what `challenge_hash_spec` computes), its result lies in
`[0, Q)`, and — being a total function — it never fails. -/
theorem challenge_hash_matches_spec (C : CurveOps)
    (nonce_commitment public_key : C.Point) (message : List Nat) :
    Aggregator.challenge_hash C nonce_commitment public_key message =
      Aggregator.challenge_hash_spec C nonce_commitment public_key message ∧
    Aggregator.challenge_hash C nonce_commitment public_key message < Q :=
  ⟨rfl, Nat.mod_lt _ Q_pos⟩

/-- Claim C6 (confirmed): with an empty participant-index set,
`group_commitment` returns the curve identity element and does not fail. -/
theorem group_commitment_empty_set (C : CurveOps) (message : List Nat)
    (pairs : List (C.Point × C.Point)) :
    Aggregator.group_commitment C message pairs [] = .ok C.infinity :=
  rfl

/-- Claim C10 (confirmed): for every tuple of integer shares — negative and
`≥ Q` values included — the aggregated scalar `z` of `signature` is the
mathematical residue of the share sum modulo `Q`: it is non-negative, below
`Q`, congruent to the sum, and its 32-byte big-endian encoding (the final
32 bytes of the signature) is canonical, decoding back to `z` exactly. -/
theorem zValue_canonical_residue (shares : List Int) :
    0 ≤ Aggregator.zValue shares ∧
    Aggregator.zValue shares < (Q : Int) ∧
    Aggregator.zValue shares % (Q : Int) =
      (shares.foldl (· + ·) 0) % (Q : Int) ∧
    (natToBytesBE 32 (Aggregator.zValue shares).toNat).length = 32 ∧
    intFromBytesBE (natToBytesBE 32 (Aggregator.zValue shares).toNat) =
      (Aggregator.zValue shares).toNat := by
  have hQ : (0 : Int) < (Q : Int) := by exact_mod_cast Q_pos
  have h0 : 0 ≤ Aggregator.zValue shares :=
    Int.emod_nonneg _ (by omega)
  have hlt : Aggregator.zValue shares < (Q : Int) :=
    Int.emod_lt_of_pos _ hQ
  refine ⟨h0, hlt, Int.emod_emod_of_dvd _ dvd_rfl, natToBytesBE_length 32 _, ?_⟩
  refine intFromBytesBE_natToBytesBE 32 _ ?_
  have : Aggregator.zValue shares < ((256 ^ 32 : Nat) : Int) := by
    calc Aggregator.zValue shares < (Q : Int) := hlt
    _ < ((256 ^ 32 : Nat) : Int) := by exact_mod_cast Q_lt_pow
  exact (Int.toNat_lt h0).mpr this

/-- Claim C5 (confirmed): with the binding values fixed by the caller's
given set order `S`, folding the per-participant terms `D_l + p_l * E_l`
in any traversal order `Sp` of the set yields the same curve point
(by commutativity and associativity of curve addition), and — when the
indexes also fit the 1-byte encoding — that point is exactly what
`group_commitment` computes. -/
theorem group_commitment_order_independent (C : CurveOps)
    (message : List Nat) (pairs : List (C.Point × C.Point))
    (S Sp : List Nat)
    (hS : ∀ i ∈ S, 1 ≤ i ∧ i ≤ pairs.length)
    (hperm : Sp.Perm S) :
    Sp.foldl (fun a l => C.add a (Aggregator.gcTerm C message pairs S l))
        C.infinity =
      S.foldl (fun a l => C.add a (Aggregator.gcTerm C message pairs S l))
        C.infinity ∧
    ((∀ i ∈ S, i ≤ 255) →
      Aggregator.group_commitment C message pairs S =
        .ok (Sp.foldl
          (fun a l => C.add a (Aggregator.gcTerm C message pairs S l))
          C.infinity)) := by
  have hfold :
      Sp.foldl (fun a l => C.add a (Aggregator.gcTerm C message pairs S l))
          C.infinity =
        S.foldl (fun a l => C.add a (Aggregator.gcTerm C message pairs S l))
          C.infinity :=
    hperm.foldl_eq'
      (fun x _ y _ z => by
        rw [C.add_assoc,
          C.add_comm (Aggregator.gcTerm C message pairs S x)
            (Aggregator.gcTerm C message pairs S y),
          ← C.add_assoc])
      C.infinity
  refine ⟨hfold, fun h255 => ?_⟩
  rw [group_commitment_ok C message pairs S (fun i hi => ⟨hS i hi, h255 i hi⟩),
    hfold]

/-- Claim C5 witness: the theorem applied to the two-participant set
`[1, 2]` traversed as `[2, 1]`. -/
theorem group_commitment_order_independent_witness :
    ((∀ i ∈ [1, 2], 1 ≤ i ∧ i ≤ pairs2.length) ∧ List.Perm [2, 1] [1, 2]) ∧
    ([2, 1].foldl
        (fun a l => testCurve.add a (Aggregator.gcTerm testCurve [] pairs2 [1, 2] l))
        testCurve.infinity =
      [1, 2].foldl
        (fun a l => testCurve.add a (Aggregator.gcTerm testCurve [] pairs2 [1, 2] l))
        testCurve.infinity) ∧
    Aggregator.group_commitment testCurve [] pairs2 [1, 2] =
      .ok ([2, 1].foldl
        (fun a l => testCurve.add a (Aggregator.gcTerm testCurve [] pairs2 [1, 2] l))
        testCurve.infinity) := by
  have h := group_commitment_order_independent testCurve [] pairs2 [1, 2] [2, 1]
    (by decide) (by decide)
  exact ⟨⟨by decide, by decide⟩, h.1, h.2 (by decide)⟩

/-- Mapping a list keeps at least one image occurrence per occurrence of a
value, for any lawful equality tests. -/
theorem count_le_count_map_gen {α β : Type} [BEq α] [LawfulBEq α]
    [BEq β] [LawfulBEq β] (f : α → β) :
    ∀ (l : List α) (x : α), l.count x ≤ (l.map f).count (f x) := by
  intro l x
  induction l with
  | nil => simp
  | cons b t ih =>
    simp only [List.map_cons, List.count_cons]
    have hmono : (if b == x then 1 else 0) ≤
        (if f b == f x then 1 else 0) := by
      by_cases h : b = x
      · subst h; simp
      · rw [if_neg (by simpa using h)]
        exact Nat.zero_le _
    exact Nat.add_le_add ih hmono

set_option maxRecDepth 8192 in
/-- Claim C9 counterexample: the claim fails as stated for a duplicated
in-range index above 255 — with n = 256 registered pairs and the set
`[256, 256]`, whose duplicated member 256 is in `[1, n]`,
`group_commitment` raises the 1-byte-encoding `OverflowError` inside
`binding_value` and adds no term at all. -/
theorem group_commitment_duplicate_counted_cex :
    ((∀ i ∈ [256, 256], 1 ≤ i ∧ i ≤ pairs256.length) ∧
      2 ≤ [256, 256].count 256) ∧
    Aggregator.group_commitment testCurve [] pairs256 [256, 256] =
      .error (.overflowError "int too big to convert") :=
  ⟨⟨by decide, by decide⟩, rfl⟩

/-- Claim C9 (corrected): restricted to sets whose members are in range
and at most 255, a duplicated index is not rejected:
`group_commitment` adds that participant's term `D_l + p_l * E_l` once per
occurrence (shown by splitting two occurrences of `l` out of the fold), the
commitment-block sequence hashed by every binding value carries the
duplicated pair's block once per occurrence (at least twice), and every
binding value hashes the full per-occurrence block concatenation. -/
theorem group_commitment_duplicate_counted (C : CurveOps)
    (message : List Nat) (pairs : List (C.Point × C.Point))
    (S : List Nat) (l : Nat)
    (hS : ∀ i ∈ S, (1 ≤ i ∧ i ≤ pairs.length) ∧ i ≤ 255)
    (hdup : 2 ≤ S.count l) :
    Aggregator.group_commitment C message pairs S =
      .ok (C.add
        (C.add
          (((S.erase l).erase l).foldl
            (fun a i => C.add a (Aggregator.gcTerm C message pairs S i))
            C.infinity)
          (Aggregator.gcTerm C message pairs S l))
        (Aggregator.gcTerm C message pairs S l)) ∧
    2 ≤ (S.map (Aggregator.commitmentBlock C pairs)).count
      (Aggregator.commitmentBlock C pairs l) ∧
    ∀ idx, 1 ≤ idx → idx ≤ 255 →
      Aggregator.binding_value C idx message pairs S =
        .ok (intFromBytesBE (sha256 (natToBytesBE 1 idx ++ message ++
          (S.map (Aggregator.commitmentBlock C pairs)).flatten))) := by
  have hl : l ∈ S := List.count_pos_iff.mp (by omega)
  have hl2 : l ∈ S.erase l := by
    refine List.count_pos_iff.mp ?_
    rw [List.count_erase_self]
    omega
  have p : S.Perm (l :: l :: (S.erase l).erase l) :=
    (List.perm_cons_erase hl).trans
      (List.Perm.cons l (List.perm_cons_erase hl2))
  have hfold :
      S.foldl (fun a i => C.add a (Aggregator.gcTerm C message pairs S i))
          C.infinity =
        (l :: l :: (S.erase l).erase l).foldl
          (fun a i => C.add a (Aggregator.gcTerm C message pairs S i))
          C.infinity :=
    p.foldl_eq'
      (fun x _ y _ z => by
        rw [C.add_assoc,
          C.add_comm (Aggregator.gcTerm C message pairs S x)
            (Aggregator.gcTerm C message pairs S y),
          ← C.add_assoc])
      C.infinity
  refine ⟨?_, le_trans hdup (count_le_count_map_gen (Aggregator.commitmentBlock C pairs) S l), ?_⟩
  · rw [group_commitment_ok C message pairs S hS, hfold]
    simp only [List.foldl_cons]
    rw [foldl_add_out C (fun i => Aggregator.gcTerm C message pairs S i),
      foldl_add_out C (fun i => Aggregator.gcTerm C message pairs S i)]
  · intro idx h1 h2
    exact binding_value_ok C idx message pairs S h1 h2 (fun i hi => (hS i hi).1)

/-- Claim C9 witness: the theorem applied to the set `[1, 1]`, which lists
participant 1 twice over a one-participant commitment list. -/
theorem group_commitment_duplicate_counted_witness :
    ((∀ i ∈ [1, 1], (1 ≤ i ∧ i ≤ pairs1.length) ∧ i ≤ 255) ∧
      2 ≤ [1, 1].count 1) ∧
    Aggregator.group_commitment testCurve [] pairs1 [1, 1] =
      .ok (testCurve.add
        (testCurve.add
          ((([1, 1].erase 1).erase 1).foldl
            (fun a i => testCurve.add a (Aggregator.gcTerm testCurve [] pairs1 [1, 1] i))
            testCurve.infinity)
          (Aggregator.gcTerm testCurve [] pairs1 [1, 1] 1))
        (Aggregator.gcTerm testCurve [] pairs1 [1, 1] 1)) ∧
    2 ≤ ([1, 1].map (Aggregator.commitmentBlock testCurve pairs1)).count
      (Aggregator.commitmentBlock testCurve pairs1 1) ∧
    Aggregator.binding_value testCurve 1 [] pairs1 [1, 1] =
      .ok (intFromBytesBE (sha256 (natToBytesBE 1 1 ++ [] ++
        ([1, 1].map (Aggregator.commitmentBlock testCurve pairs1)).flatten))) := by
  have h := group_commitment_duplicate_counted testCurve [] pairs1 [1, 1] 1
    (by decide) (by decide)
  exact ⟨⟨by decide, by decide⟩, h.1, h.2.1, h.2.2 1 (by decide) (by decide)⟩

/-- With its own index in `[1, 255]`, `binding_value` stops with
`ValueError` at the first out-of-range index referenced by the
participant-index list. -/
theorem binding_value_err (C : CurveOps) (index : Nat) (message : List Nat)
    (pairs : List (C.Point × C.Point)) (bad : Nat) (S2 : List Nat)
    (h1 : 1 ≤ index) (h2 : index ≤ 255)
    (hbad : bad < 1 ∨ bad > pairs.length)
    (S1 : List Nat) (hS1 : ∀ i ∈ S1, 1 ≤ i ∧ i ≤ pairs.length) :
    Aggregator.binding_value C index message pairs (S1 ++ bad :: S2) =
      .error (.valueError
        ("Index " ++ toString bad ++ " is out of range for nonce commitments.")) := by
  unfold Aggregator.binding_value
  rw [if_neg (by omega : ¬ index < 1)]
  have hbyte : intToBytes 1 index = .ok (natToBytesBE 1 index) := by
    unfold intToBytes
    rw [if_pos (by rw [pow_one]; omega)]
  rw [hbyte, serializeBlocks_err C pairs bad S2 hbad S1 hS1]
  rfl

/-- Claim C1 counterexample: with one registered commitment pair (n = 1)
and the in-range participant-index set `[1]`, `binding_value` called with
index n + 1 = 2 does not raise — it succeeds, because the method checks its
own index only against the lower bound. -/
theorem binding_value_succ_index_cex :
    (pairs1.length = 1 ∧ (∀ i ∈ [1], 1 ≤ i ∧ i ≤ pairs1.length)) ∧
    (Aggregator.binding_value testCurve 2 [] pairs1 [1]).isOk = true :=
  ⟨⟨rfl, by decide⟩, rfl⟩

/-- Claim C1 (corrected): `binding_value` raises `IndexOutOfRange` for
index 0, and `group_commitment` raises `IndexOutOfRange` when its set
contains 0 or n + 1 (after any prefix of valid indexes); but
`binding_value` itself does not reject index n + 1: with the referenced
set in `[1, n]` (and n + 1 ≤ 255) it returns the binding factor. -/
theorem index_range_errors_amended (C : CurveOps) (message : List Nat)
    (pairs : List (C.Point × C.Point)) (S S1 S2 : List Nat) (bad : Nat) :
    Aggregator.binding_value C 0 message pairs S =
      .error (.valueError "Participant index must start from 1.") ∧
    ((bad = 0 ∨ bad = pairs.length + 1) →
      (∀ i ∈ S1, (1 ≤ i ∧ i ≤ pairs.length) ∧ i ≤ 255) →
      ∃ m, Aggregator.group_commitment C message pairs (S1 ++ bad :: S2) =
        .error (.valueError m)) ∧
    ((∀ i ∈ S, 1 ≤ i ∧ i ≤ pairs.length) → pairs.length + 1 ≤ 255 →
      Aggregator.binding_value C (pairs.length + 1) message pairs S =
        .ok (Aggregator.binding_value_spec C (pairs.length + 1)
          message pairs S)) := by
  refine ⟨?_, ?_, ?_⟩
  · unfold Aggregator.binding_value
    rw [if_pos (by decide : (0 : Nat) < 1)]
    rfl
  · intro hbad hS1
    cases S1 with
    | nil =>
      refine ⟨"Participant index " ++ toString bad ++ " is out of range.", ?_⟩
      rw [List.nil_append]
      unfold Aggregator.group_commitment Aggregator.gcLoop
      rw [if_pos (by omega : bad < 1 ∨ bad > pairs.length)]
    | cons a t =>
      refine ⟨"Index " ++ toString bad ++
        " is out of range for nonce commitments.", ?_⟩
      have ha := hS1 a (List.mem_cons_self a t)
      unfold Aggregator.group_commitment
      rw [List.cons_append]
      unfold Aggregator.gcLoop
      rw [if_neg (by omega : ¬(a < 1 ∨ a > pairs.length))]
      rw [show Aggregator.binding_value C a message pairs
            (a :: (t ++ bad :: S2)) =
          .error (.valueError ("Index " ++ toString bad ++
            " is out of range for nonce commitments.")) from
        binding_value_err C a message pairs bad S2 (by omega) (by omega)
          (by omega) (a :: t)
          (fun i hi => (hS1 i hi).1)]
      rfl
  · intro hS h255
    exact binding_value_ok C (pairs.length + 1) message pairs S
      (by omega) h255 hS

/-- Claim C1 witness: the amended theorem applied with n = 1, the set `[1]`,
and the offending index 2 = n + 1. -/
theorem index_range_errors_amended_witness :
    ((2 = 0 ∨ 2 = pairs1.length + 1) ∧
      (∀ i ∈ [1], (1 ≤ i ∧ i ≤ pairs1.length) ∧ i ≤ 255) ∧
      (∀ i ∈ [1], 1 ≤ i ∧ i ≤ pairs1.length) ∧ pairs1.length + 1 ≤ 255) ∧
    Aggregator.binding_value testCurve 0 [] pairs1 [1] =
      .error (.valueError "Participant index must start from 1.") ∧
    (∃ m, Aggregator.group_commitment testCurve [] pairs1 ([1] ++ 2 :: []) =
      .error (.valueError m)) ∧
    Aggregator.binding_value testCurve 2 [] pairs1 [1] =
      .ok (Aggregator.binding_value_spec testCurve 2 [] pairs1 [1]) := by
  have h := index_range_errors_amended testCurve [] pairs1 [1] [1] [] 2
  exact ⟨⟨by decide, by decide, by decide, by decide⟩, h.1,
    h.2.1 (by decide) (by decide), h.2.2 (by decide) (by decide)⟩

set_option maxRecDepth 8192 in
/-- Claim C3 counterexample: an aggregator whose participant index 256 is
in range (n = 256 registered pairs) makes `signature` raise
`OverflowError` instead of returning a hex string, because the binding
value's 1-byte index encoding cannot hold 256. -/
theorem signature_hex_format_cex :
    (∀ i ∈ [256], 1 ≤ i ∧ i ≤ pairs256.length) ∧
    Aggregator.signature testCurve [] pairs256 [256] [] =
      .error (.overflowError "int too big to convert") :=
  ⟨by decide, rfl⟩

/-- Claim C3 (corrected): for an aggregator whose participant indexes are
all in range and at most 255, `signature` returns the lowercase hex string
(128 characters, 64 bytes decoded) whose first 32 bytes are the x-only
serialization of the group commitment and whose last 32 bytes are the
big-endian encoding of `sum(shares) mod Q`, with 32 zero bytes in the
boundary case `sum(shares) ≡ 0 (mod Q)`. -/
theorem signature_hex_format_amended (C : CurveOps) (message : List Nat)
    (pairs : List (C.Point × C.Point)) (S : List Nat) (shares : List Int)
    (hS : ∀ i ∈ S, (1 ≤ i ∧ i ≤ pairs.length) ∧ i ≤ 255) :
    Aggregator.signature C message pairs S shares =
      .ok (bytesToHex (Aggregator.sigBytes C message pairs S shares)) ∧
    (bytesToHex (Aggregator.sigBytes C message pairs S shares)).length = 128 ∧
    (∀ c ∈ (bytesToHex (Aggregator.sigBytes C message pairs S shares)).data,
      c ∈ hexDigitChars) ∧
    (Aggregator.sigBytes C message pairs S shares).length = 64 ∧
    (Aggregator.sigBytes C message pairs S shares).take 32 =
      C.xonly_serialize
        (S.foldl (fun a l => C.add a (Aggregator.gcTerm C message pairs S l))
          C.infinity) ∧
    (Aggregator.sigBytes C message pairs S shares).drop 32 =
      natToBytesBE 32 (Aggregator.zValue shares).toNat ∧
    ((shares.foldl (· + ·) 0) % (Q : Int) = 0 →
      (Aggregator.sigBytes C message pairs S shares).drop 32 =
        List.replicate 32 0) := by
  have hlen : (Aggregator.sigBytes C message pairs S shares).length = 64 := by
    unfold Aggregator.sigBytes
    rw [List.length_append, C.xonly_length, natToBytesBE_length]
  refine ⟨?_, ?_, ?_, hlen, ?_, ?_, ?_⟩
  · unfold Aggregator.signature
    rw [group_commitment_ok C message pairs S hS]
    rfl
  · rw [bytesToHex_length, hlen]
  · refine bytesToHex_chars _ (fun b hb => ?_)
    unfold Aggregator.sigBytes at hb
    rcases List.mem_append.mp hb with h | h
    · exact C.xonly_bytes_lt _ b h
    · exact natToBytesBE_bytes_lt 32 _ b h
  · exact List.take_left' (C.xonly_length _)
  · exact List.drop_left' (C.xonly_length _)
  · intro h0
    have hz : Aggregator.zValue shares = 0 := h0
    refine Eq.trans (List.drop_left' (C.xonly_length _)) ?_
    rw [hz]
    exact natToBytesBE_zero 32

/-- Claim C3 witness: the amended theorem at a one-participant aggregator
with shares summing to 0 modulo Q, exercising the all-zero boundary. -/
theorem signature_hex_format_amended_witness :
    ((∀ i ∈ [1], (1 ≤ i ∧ i ≤ pairs1.length) ∧ i ≤ 255) ∧
      ([(3 : Int), -3].foldl (· + ·) 0) % (Q : Int) = 0) ∧
    Aggregator.signature testCurve [] pairs1 [1] [(3 : Int), -3] =
      .ok (bytesToHex (Aggregator.sigBytes testCurve [] pairs1 [1]
        [(3 : Int), -3])) ∧
    (bytesToHex (Aggregator.sigBytes testCurve [] pairs1 [1]
      [(3 : Int), -3])).length = 128 ∧
    (Aggregator.sigBytes testCurve [] pairs1 [1] [(3 : Int), -3]).length = 64 ∧
    (Aggregator.sigBytes testCurve [] pairs1 [1] [(3 : Int), -3]).drop 32 =
      List.replicate 32 0 := by
  have h := signature_hex_format_amended testCurve [] pairs1 [1]
    [(3 : Int), -3] (by decide)
  exact ⟨⟨by decide, by decide⟩, h.1, h.2.1, h.2.2.2.1,
    h.2.2.2.2.2.2 (by decide)⟩

set_option maxRecDepth 8192 in
/-- Claim C7 counterexample: share-independence of success does not extend
past index 255 — with the in-range index 256, `signature` fails for any
shares, here `[5]`. -/
theorem signature_no_share_validation_cex :
    (∀ i ∈ [256], 1 ≤ i ∧ i ≤ pairs256.length) ∧
    (Aggregator.signature testCurve [] pairs256 [256] [(5 : Int)]).isOk
      = false :=
  ⟨by decide, rfl⟩

/-- Claim C7 (corrected): for an aggregator whose participant indexes are
all in range and at most 255, `signature` performs no per-share validation:
it succeeds for every tuple of integer shares, however malformed, and no
`InvalidShare` error exists anywhere in the error type. -/
theorem signature_no_share_validation_amended (C : CurveOps)
    (message : List Nat) (pairs : List (C.Point × C.Point)) (S : List Nat)
    (hS : ∀ i ∈ S, (1 ≤ i ∧ i ≤ pairs.length) ∧ i ≤ 255) :
    ∀ shares : List Int,
      (Aggregator.signature C message pairs S shares).isOk = true := by
  intro shares
  unfold Aggregator.signature
  rw [group_commitment_ok C message pairs S hS]
  rfl

/-- Claim C7 witness: the amended theorem applied to wildly out-of-range
shares. -/
theorem signature_no_share_validation_amended_witness :
    (∀ i ∈ [1], (1 ≤ i ∧ i ≤ pairs1.length) ∧ i ≤ 255) ∧
    (Aggregator.signature testCurve [] pairs1 [1]
      [(7 : Int), -9, 1000000000000]).isOk = true :=
  ⟨by decide,
   signature_no_share_validation_amended testCurve [] pairs1 [1] (by decide)
     [(7 : Int), -9, 1000000000000]⟩

/-- Claim C8 (confirmed): for any participant index above 255,
`binding_value` fails with the `OverflowError` of the 1-byte index
encoding — not with `IndexOutOfRange` — even when the index is within
`[1, n]`; consequently `group_commitment` fails with that same
`OverflowError` whenever its in-range set contains an index above 255. -/
theorem index_overflow_above_255 (C : CurveOps) (message : List Nat)
    (pairs : List (C.Point × C.Point)) (S : List Nat) (l : Nat)
    (h : 255 < l) :
    Aggregator.binding_value C l message pairs S =
      .error (.overflowError "int too big to convert") ∧
    ((∀ i ∈ S, 1 ≤ i ∧ i ≤ pairs.length) → l ∈ S →
      Aggregator.group_commitment C message pairs S =
        .error (.overflowError "int too big to convert")) := by
  refine ⟨binding_value_overflow C l message pairs S h, fun hS hl => ?_⟩
  unfold Aggregator.group_commitment
  exact gcLoop_overflow C message pairs S hS S C.infinity hS ⟨l, hl, h⟩

set_option maxRecDepth 8192 in
/-- Claim C8 witness: the theorem at index 256, in range for 256 registered
pairs. -/
theorem index_overflow_above_255_witness :
    (255 < 256 ∧ (∀ i ∈ [256], 1 ≤ i ∧ i ≤ pairs256.length) ∧
      256 ∈ [256]) ∧
    Aggregator.binding_value testCurve 256 [] pairs256 [256] =
      .error (.overflowError "int too big to convert") ∧
    Aggregator.group_commitment testCurve [] pairs256 [256] =
      .error (.overflowError "int too big to convert") := by
  have h := index_overflow_above_255 testCurve [] pairs256 [256] 256
    (by decide)
  exact ⟨⟨by decide, by decide, by decide⟩, h.1, h.2 (by decide) (by decide)⟩
